import Mathlib

/-!
# memfs: a watched in-memory filesystem

A shallow embedding of `file.go`, `fileinfo.go` and `fs.go` of the Go package
`memfs`, followed by theorems about file handles (`Read`, `Seek`, `Readdir`),
the cache (`Open`, `refreshCache`, `reloadFile`, `deleteFile`) and the watcher
loop (`watcherCallback`).

Modelling conventions

* Go `int64` values are `Int`s; every arithmetic result is passed through
  `wrap64` (two's complement wrap-around).  Go `int` is taken to be 64 bits
  wide (the `amd64`/`arm64` targets), so `int(x)` for an `int64` `x` is `toInt x`.
* A Go `[]byte` is a `List Byte`; its capacity is taken to be its length, so
  the model's slice expression fails at least whenever Go's panics.
* A Go `string` is a Lean `String`; its length and indices are counted in list
  elements of `String.data` (bytes, for ASCII paths).
* A Go `map[string]*memFileInfo` is an association list with `get`/`put`/`del`;
  the order in which a `range` statement visits the map is an explicit argument
  of `Readdir`, because Go leaves it unspecified.
* The disk, and whether `Watcher.Watch` succeeds, are fields of `World`.
* A run-time panic is the value `none`.
-/

set_option maxRecDepth 100000

namespace Memfs

/-! ## Machine integers -/

/-- Two's complement wrap-around of a mathematical integer into `int64`. -/
def wrap64 (x : Int) : Int := (x + 2 ^ 63) % 2 ^ 64 - 2 ^ 63

/-- The conversion `int(x)` of an `int64`, with `int` 64 bits wide. -/
def toInt (x : Int) : Int := wrap64 x

/-- The conversion `int64(n)` of an `int`. -/
def toInt64 (n : Int) : Int := wrap64 n

/-- The values an `int64` variable can hold. -/
def isInt64 (x : Int) : Prop := -(2 ^ 63) ≤ x ∧ x < 2 ^ 63

instance (x : Int) : Decidable (isInt64 x) := by unfold isInt64; exact inferInstance

/-! ## fileinfo.go -/

abbrev Byte := UInt8

/-- The result of `os.Stat`: the five accessors of `os.FileInfo` the package uses. -/
structure FileInfo where
  name : String
  size : Int
  mode : Nat
  modTime : Int
  isDir : Bool
  deriving DecidableEq, Repr

/-- The struct `memFileInfo`.  The back pointer `fs` is not a field: the cache it points
to is passed to `Readdir`, the only function that follows it. -/
structure memFileInfo where
  content : List Byte
  name : String
  size : Int
  mode : Nat
  modTime : Int
  isDir : Bool
  path : String
  deriving DecidableEq, Repr

def memFileInfo.Name (fi : memFileInfo) : String := fi.name

def memFileInfo.Size (fi : memFileInfo) : Int := fi.size

def memFileInfo.Mode (fi : memFileInfo) : Nat := fi.mode

def memFileInfo.ModTime (fi : memFileInfo) : Int := fi.modTime

def memFileInfo.IsDir (fi : memFileInfo) : Bool := fi.isDir

/-- The method `fileInfoSorter.Less` on two elements: Go's `<` on strings is the
lexicographic order of their elements. -/
def Less (a b : memFileInfo) : Prop := a.Name.data < b.Name.data

instance (a b : memFileInfo) : Decidable (Less a b) := by unfold Less; exact inferInstance

/-! ## file.go -/

/-- The struct `memFile`. `dirOffset` starts at 0 and only grows, so it is a `Nat`. -/
structure memFile where
  fi : memFileInfo
  offset : Int
  dirOffset : Nat
  deriving DecidableEq, Repr

/-- The error values the package returns. -/
inductive Error where
  | errWhence
  | errOffset
  | EOF
  | notFound
  | ioError
  | watchError
  deriving DecidableEq, Repr

def SEEK_SET : Int := 0

def SEEK_CUR : Int := 1

def SEEK_END : Int := 2

/-- The built-in `copy(dst, src)`: overwrites the first `min (len dst) (len src)`
elements of `dst`. -/
def copy (dst src : List Byte) : List Byte :=
  src.take dst.length ++ dst.drop src.length

/-- The slice expression `s[lo:hi]`; `none` is the run-time panic. -/
def slice (s : List Byte) (lo hi : Int) : Option (List Byte) :=
  if 0 ≤ lo ∧ lo ≤ hi ∧ hi ≤ (s.length : Int) then
    some ((s.drop lo.toNat).take (hi - lo).toNat)
  else none

/-- What `Read` hands back: the byte count, the error, the buffer and the handle. -/
structure ReadResult where
  n : Int
  err : Option Error
  p : List Byte
  f : memFile
  deriving DecidableEq, Repr

/-- The method `memFile.Read`. -/
def memFile.Read (f : memFile) (p : List Byte) : Option ReadResult :=
  let len : Int := f.fi.content.length
  let r : Int × Option Error :=
    if wrap64 (len - toInt f.offset) ≥ (p.length : Int) then
      ((p.length : Int), none)
    else
      (wrap64 (len - toInt f.offset), some Error.EOF)
  match slice f.fi.content f.offset (wrap64 (f.offset + toInt64 r.1)) with
  | none => none
  | some src =>
    some { n := r.1, err := r.2, p := copy p src,
           f := { f with offset := wrap64 (f.offset + toInt64 r.1) } }

/-- What `Seek` hands back: the returned offset, the error and the handle. -/
structure SeekResult where
  ret : Int
  err : Option Error
  f : memFile
  deriving DecidableEq, Repr

/-- The part of `Seek` after the `switch`. -/
def seekTail (f : memFile) (offset : Int) : SeekResult :=
  if offset < 0 ∨ toInt offset > (f.fi.content.length : Int) then
    { ret := 0, err := some Error.errOffset, f := f }
  else
    { ret := offset, err := none, f := { f with offset := offset } }

/-- The method `memFile.Seek`. -/
def memFile.Seek (f : memFile) (offset : Int) (whence : Int) : SeekResult :=
  if whence = SEEK_SET then seekTail f offset
  else if whence = SEEK_CUR then seekTail f (wrap64 (offset + f.offset))
  else if whence = SEEK_END then seekTail f (wrap64 (offset + toInt64 f.fi.content.length))
  else { ret := 0, err := some Error.errWhence, f := f }

/-- The built-in `strings.HasPrefix`. -/
def HasPrefix (s pfx : String) : Bool := pfx.data.isPrefixOf s.data

/-- Scan for `strings.LastIndex`: `i` is the index of the head, `acc` the last hit so far. -/
def lastIndexFrom (sep : Char) : List Char → Nat → Int → Int
  | [], _, acc => acc
  | c :: cs, i, acc => lastIndexFrom sep cs (i + 1) (if c = sep then (i : Int) else acc)

/-- The function `strings.LastIndex(s, sep)` for a separator of one character (the package
only calls it with `"/"`): the index of the last occurrence, or `-1`. -/
def LastIndex (s : String) (sep : Char) : Int := lastIndexFrom sep s.data 0 (-1)

/-- The built-in `len` of a string. -/
def len (s : String) : Int := (s.data.length : Int)

/-- The filter of the `range` loop of `Readdir`: the entry at `path` passes the three tests
that precede the `skip` counter. -/
def listed (pfx path : String) : Bool :=
  (HasPrefix path pfx || pfx == ".") && !(len path == len pfx) && !(LastIndex path '/' > len pfx)

/-- The `range` loop of `Readdir` over the entries in the order the map yields them;
`infos` and `skip` are the loop's two variables. -/
def readdirLoop (pfx : String) (dirOffset : Nat) (count : Int) :
    List (String × memFileInfo) → List memFileInfo → Nat → List memFileInfo
  | [], infos, _ => infos
  | (path, fi) :: rest, infos, skip =>
    if HasPrefix path pfx || pfx == "." then
      if len path == len pfx then readdirLoop pfx dirOffset count rest infos skip
      else if LastIndex path '/' > len pfx then readdirLoop pfx dirOffset count rest infos skip
      else if skip < dirOffset then readdirLoop pfx dirOffset count rest infos (skip + 1)
      else if ((infos ++ [fi]).length : Int) = count then infos ++ [fi]
      else readdirLoop pfx dirOffset count rest (infos ++ [fi]) skip
    else readdirLoop pfx dirOffset count rest infos skip

/-- The call `sort.Sort(fis)`: the infos in ascending order of `Less`.  Go's sort is not
stable; the model fixes the arrangement of entries with equal names. -/
def sortInfos (infos : List memFileInfo) : List memFileInfo :=
  infos.insertionSort (fun a b => ¬ Less b a)

/-- The method `memFile.Readdir`; `iter` is the sequence of entries of `f.fi.fs.cache` in
the order this call's `range` statement visits them.  The returned error is always `nil`. -/
def memFile.Readdir (f : memFile) (iter : List (String × memFileInfo)) (count : Int) :
    List memFileInfo × memFile :=
  let infos := readdirLoop f.fi.path f.dirOffset count iter [] 0
  (sortInfos infos, { f with dirOffset := f.dirOffset + infos.length })

/-- Successive calls `Readdir(count)` on one handle, one iteration order per call; the
result is the list of pages in call order and the handle at the end. -/
def readdirCalls (count : Int) :
    memFile → List (List (String × memFileInfo)) → List (List memFileInfo) × memFile
  | f, [] => ([], f)
  | f, iter :: iters =>
    let r := f.Readdir iter count
    let rs := readdirCalls count r.2 iters
    (r.1 :: rs.1, rs.2)

/-- One call on a handle: a `Read` into a buffer or a `Seek`. -/
inductive Op where
  | read (p : List Byte)
  | seek (offset whence : Int)
  deriving DecidableEq, Repr

/-- The arguments of a call are values of their Go types. -/
def Op.wellTyped : Op → Prop
  | Op.read _ => True
  | Op.seek offset whence => isInt64 offset ∧ isInt64 whence

instance (op : Op) : Decidable op.wellTyped := by
  cases op <;> unfold Op.wellTyped <;> exact inferInstance

/-- The handle after one call; `none` is a panic. -/
def Op.apply (f : memFile) : Op → Option memFile
  | Op.read p => (f.Read p).map (fun r => r.f)
  | Op.seek offset whence => some (f.Seek offset whence).f

/-- The handle after a sequence of calls; `none` if one of them panics. -/
def runOps : memFile → List Op → Option memFile
  | f, [] => some f
  | f, op :: ops => (op.apply f).bind (fun g => runOps g ops)

/-- Repeated `Read` into a fresh buffer of `k` bytes until it signals `io.EOF`, collecting
`p[:n]` of each call; `none` if a call panics or the fuel runs out first. -/
def readAll (k : Nat) : Nat → memFile → Option (List Byte)
  | 0, _ => none
  | fuel + 1, f =>
    match f.Read (List.replicate k 0) with
    | none => none
    | some r =>
      if r.err = some Error.EOF then some (r.p.take r.n.toNat)
      else (readAll k fuel r.f).map (fun rest => r.p.take r.n.toNat ++ rest)

/-- The target offset of `seek(offset, origin)` as the specification words it, in unbounded
integers: `offset`, `readOffset + offset` or `contentLength + offset`. -/
def seekTargetSpec (f : memFile) (offset whence : Int) : Option Int :=
  if whence = SEEK_SET then some offset
  else if whence = SEEK_CUR then some (f.offset + offset)
  else if whence = SEEK_END then some ((f.fi.content.length : Int) + offset)
  else none

/-! ## Go's `path` and `path/filepath` (Unix) -/

/-- The elements of a path between its slashes: `a//b` gives `a`, the empty element, `b`. -/
def splitSlash : List Char → List (List Char)
  | [] => [[]]
  | c :: cs =>
    if c = '/' then [] :: splitSlash cs
    else
      match splitSlash cs with
      | [] => [[c]]
      | e :: es => (c :: e) :: es

/-- The elements written out with one slash between neighbours. -/
def joinSlash : List (List Char) → List Char
  | [] => []
  | [e] => e
  | e :: es => e ++ '/' :: joinSlash es

/-- The element loop of `path.Clean`: `out` is the stack of kept elements, top first.
Empty and `.` elements are dropped; `..` removes the element before it, is dropped at the
top of a rooted path, and is kept at the start of an unrooted one. -/
def cleanElems (rooted : Bool) : List (List Char) → List (List Char) → List (List Char)
  | [], out => out.reverse
  | e :: es, out =>
    if e = [] ∨ e = ['.'] then cleanElems rooted es out
    else if e = ['.', '.'] then
      match out with
      | [] => if rooted then cleanElems rooted es [] else cleanElems rooted es [e]
      | o :: os =>
        if o = ['.', '.'] then cleanElems rooted es (e :: o :: os)
        else cleanElems rooted es os
    else cleanElems rooted es (e :: out)

/-- The function `path.Clean` (and `filepath.Clean` on Unix), after its documentation: the
shortest path equivalent to `path` by lexical processing. -/
def Clean (path : String) : String :=
  if path.data = [] then "."
  else
    let rooted : Bool := path.data.head? = some '/'
    let out := cleanElems rooted (splitSlash path.data) []
    if rooted then ⟨'/' :: joinSlash out⟩
    else if out = [] then "."
    else ⟨joinSlash out⟩

/-- The function `path.Dir`: `Clean` of everything up to and including the last slash. -/
def Dir (path : String) : String :=
  Clean ⟨path.data.take (LastIndex path '/' + 1).toNat⟩

/-- The function `filepath.Join` on two elements: empty elements are ignored, the rest are
joined with a slash and cleaned. -/
def Join (a b : String) : String :=
  if a.data ≠ [] then Clean (a ++ "/" ++ b)
  else if b.data ≠ [] then Clean b
  else ""

/-- The weight of a list of path elements: each element's length plus one for its slash. -/
def weight : List (List Char) → Nat
  | [] => 0
  | e :: es => e.length + 1 + weight es

/-! ## fs.go -/

/-- The map `cache`: its entries, at most one per key. -/
abbrev Cache := List (String × memFileInfo)

/-- The index expression `cache[name]`. -/
def Cache.get (c : Cache) (name : String) : Option memFileInfo := List.lookup name c

/-- The built-in `delete(cache, path)`. -/
def Cache.del (c : Cache) (path : String) : Cache := c.filter (fun e => e.1 != path)

/-- The assignment `cache[path] = fi`. -/
def Cache.put (c : Cache) (path : String) (fi : memFileInfo) : Cache :=
  (path, fi) :: c.del path

/-- The struct `memFileSystem`; the lock and the watcher carry no data of the model. -/
structure memFileSystem where
  root : String
  cache : Cache
  deriving DecidableEq, Repr

/-- The environment of one step: the disk as `os.Stat`/`os.Lstat`, `ioutil.ReadFile` and
the sorted names of a directory see it, and whether `Watcher.Watch` on a path succeeds. -/
structure World where
  stat : String → Option FileInfo
  readFile : String → Option (List Byte)
  readDirNames : String → Option (List String)
  watch : String → Bool

/-- The method `memFileSystem.Open`. -/
def memFileSystem.Open (fs : memFileSystem) (name : String) : Except Error memFile :=
  let name := Join fs.root name
  match fs.cache.get name with
  | none => Except.error Error.notFound
  | some fi => Except.ok { fi := fi, offset := 0, dirOffset := 0 }

/-- The method `memFileSystem.refreshCache`; `info = none` is the `nil` interface. -/
def memFileSystem.refreshCache (w : World) (fs : memFileSystem) (path : String)
    (info : Option FileInfo) : Option Error × memFileSystem :=
  match info with
  | none => (none, { fs with cache := fs.cache.del path })
  | some info =>
    let fi : memFileInfo :=
      { content := [], name := info.name, size := info.size, mode := info.mode,
        modTime := info.modTime, isDir := info.isDir, path := path }
    if !fi.isDir then
      match w.readFile path with
      | none => (some Error.ioError, fs)
      | some content => (none, { fs with cache := fs.cache.put path { fi with content := content } })
    else (none, { fs with cache := fs.cache.put path fi })

/-- The function literal that `walk` hands to `filepath.Walk`, on an entry whose `Lstat`
succeeded. -/
def walkFn (w : World) (fs : memFileSystem) (path : String) (fi : FileInfo) :
    Option Error × memFileSystem :=
  let r := fs.refreshCache w path (some fi)
  if r.1.isSome then (some Error.ioError, r.2)
  else if fi.isDir && !w.watch path then (some Error.watchError, r.2)
  else (none, r.2)

/-- The loop of `filepath.Walk` over the names of a directory; `visit` is the recursive
walk of one entry. -/
def walkNames (w : World)
    (visit : String → FileInfo → memFileSystem → Option (Option Error × memFileSystem))
    (path : String) : List String → memFileSystem → Option (Option Error × memFileSystem)
  | [], fs => some (none, fs)
  | name :: names, fs =>
    match w.stat (Join path name) with
    | none => some (some Error.ioError, fs)
    | some info =>
      match visit (Join path name) info fs with
      | none => none
      | some r => if r.1.isSome then some r else walkNames w visit path names r.2

/-- The recursion of `filepath.Walk` below an entry: visit it, then its children by name.
The fuel bounds the depth of the tree; `none` means it ran out. -/
def walkTree (w : World) : Nat → String → FileInfo → memFileSystem →
    Option (Option Error × memFileSystem)
  | 0, _, _, _ => none
  | fuel + 1, path, info, fs =>
    let r := walkFn w fs path info
    if r.1.isSome then some r
    else if !info.isDir then some (none, r.2)
    else
      match w.readDirNames path with
      | none => some (some Error.ioError, r.2)
      | some names => walkNames w (walkTree w fuel) path names r.2

/-- The method `memFileSystem.walk`: `filepath.Walk` from the root. -/
def memFileSystem.walk (w : World) (fuel : Nat) (fs : memFileSystem) :
    Option (Option Error × memFileSystem) :=
  match w.stat fs.root with
  | none => some (some Error.ioError, fs)
  | some info => walkTree w fuel fs.root info fs

/-- The method `memFileSystem.reloadFile`. -/
def memFileSystem.reloadFile (w : World) (fs : memFileSystem) (name : String) :
    Option FileInfo × memFileSystem :=
  match w.stat name with
  | none => (none, fs)
  | some fi =>
    let r := fs.refreshCache w name (some fi)
    if r.1.isSome then (none, r.2) else (some fi, r.2)

/-- The method `memFileSystem.deleteFile`. -/
def memFileSystem.deleteFile (w : World) (fs : memFileSystem) (name : String) :
    Option memFileInfo × memFileSystem :=
  match fs.cache.get name with
  | none => (none, fs)
  | some fi => (some fi, (fs.refreshCache w name none).2)

/-- A value of `fsnotify.FileEvent`: its `Name` and what `IsCreate`, `IsModify`, `IsDelete`
and `IsRename` answer. -/
structure FileEvent where
  Name : String
  IsCreate : Bool
  IsModify : Bool
  IsDelete : Bool
  IsRename : Bool
  deriving DecidableEq, Repr

/-- The `case e := <-fs.watcher.Event` branch of `watcherCallback`: the three `if`
statements in turn.  Adding and removing watches only logs. -/
def memFileSystem.onEvent (w : World) (fs : memFileSystem) (e : FileEvent) : memFileSystem :=
  let fs1 :=
    if e.IsCreate then ((fs.reloadFile w e.Name).2).reloadFile w (Dir e.Name) |>.2
    else fs
  let fs2 := if e.IsModify then (fs1.reloadFile w e.Name).2 else fs1
  if e.IsDelete || e.IsRename then ((fs2.deleteFile w e.Name).2).reloadFile w (Dir e.Name) |>.2
  else fs2

/-- The loop of `watcherCallback` over the events received so far, each with the state of
the disk at the time it is handled.  A receive on the error channel only logs. -/
def memFileSystem.watcherCallback (fs : memFileSystem) : List (World × FileEvent) → memFileSystem
  | [] => fs
  | (w, e) :: rest => (fs.onEvent w e).watcherCallback rest

/-- The function `New`: the file system after the initial walk, or the walk's error. -/
def New (w : World) (fuel : Nat) (root : String) : Option (Except Error memFileSystem) :=
  match ({ root := Clean root, cache := [] } : memFileSystem).walk w fuel with
  | none => none
  | some (some err, _) => some (Except.error err)
  | some (none, fs) => some (Except.ok fs)

/-! ## Notions of the specification -/

/-- The path `p` is the root or lies below it: `root` followed by a slash and more. -/
def underRoot (root p : String) : Bool := p == root || HasPrefix p (root ++ "/")

/-- The key `path` names an immediate child of the directory `d`: it is `d`, a slash and a
non-empty name without a slash. -/
def isChild (d path : String) : Bool :=
  HasPrefix path (d ++ "/") && decide (path.data.length > d.data.length + 1)
    && !((path.data.drop (d.data.length + 1)).contains '/')

/-- The records among `iter` whose key passes the filter of `Readdir`, in the order of `iter`. -/
def listedInfos (pfx : String) (iter : List (String × memFileInfo)) : List memFileInfo :=
  (iter.filter (fun e => listed pfx e.1)).map (fun e => e.2)

/-- The first `count` elements when `count` is positive, everything otherwise. -/
def pageOf (count : Int) (l : List memFileInfo) : List memFileInfo :=
  if 0 < count then l.take count.toNat else l

/-! ## Concrete inputs -/

/-- A record holding the four bytes `abcd`. -/
def fileAbcd : memFileInfo :=
  { content := [97, 98, 99, 100], name := "a.txt", size := 4, mode := 420, modTime := 0,
    isDir := false, path := "/r/a.txt" }

/-- The `os.FileInfo` of the directory `/r`. -/
def statDirR : FileInfo := { name := "r", size := 4096, mode := 493, modTime := 0, isDir := true }

/-- The `os.FileInfo` of a two-byte regular file `newfile.txt`. -/
def statNewfile : FileInfo :=
  { name := "newfile.txt", size := 2, mode := 420, modTime := 7, isDir := false }

/-- A disk holding the directory `/r` with the file `/r/newfile.txt` (content `hi`) and
nothing else; in particular `/r/a.txt` is gone. -/
def worldNewfile : World :=
  { stat := fun path =>
      if path = "/r" then some statDirR
      else if path = "/r/newfile.txt" then some statNewfile
      else none,
    readFile := fun path => if path = "/r/newfile.txt" then some [104, 105] else none,
    readDirNames := fun path => if path = "/r" then some ["newfile.txt"] else none,
    watch := fun _ => true }

/-- A file system rooted at `/r` whose cache holds the directory and `a.txt`. -/
def fsAbcd : memFileSystem :=
  { root := "/r",
    cache := [("/r", { content := [], name := "r", size := 4096, mode := 493, modTime := 0,
                       isDir := true, path := "/r" }),
              ("/r/a.txt", fileAbcd)] }

/-- A directory record at `path`. -/
def dirAt (path name : String) : memFileInfo :=
  { content := [], name := name, size := 4096, mode := 493, modTime := 0, isDir := true,
    path := path }

/-- An empty regular file at `path`. -/
def fileAt (path name : String) : memFileInfo :=
  { content := [], name := name, size := 0, mode := 420, modTime := 0, isDir := false,
    path := path }

/-- A file system rooted at `/r`: the directory `sub` holding `b.txt`, and next to it the
file `subway`. -/
def fsSub : memFileSystem :=
  { root := "/r",
    cache := [("/r", dirAt "/r" "r"), ("/r/sub", dirAt "/r/sub" "sub"),
              ("/r/sub/b.txt", fileAt "/r/sub/b.txt" "b.txt"),
              ("/r/subway", fileAt "/r/subway" "subway")] }

/-- A file system rooted at `/r`: the directory `d` holding the files `a`, `b` and `c`. -/
def fsAbc : memFileSystem :=
  { root := "/r",
    cache := [("/r", dirAt "/r" "r"), ("/r/d", dirAt "/r/d" "d"),
              ("/r/d/a", fileAt "/r/d/a" "a"), ("/r/d/b", fileAt "/r/d/b" "b"),
              ("/r/d/c", fileAt "/r/d/c" "c")] }

/-- The entries of `fsAbc.cache` in another order: `c`, `a`, `b`, then the directories. -/
def iterCab : List (String × memFileInfo) :=
  [("/r/d/c", fileAt "/r/d/c" "c"), ("/r/d/a", fileAt "/r/d/a" "a"),
   ("/r/d/b", fileAt "/r/d/b" "b"), ("/r/d", dirAt "/r/d" "d"), ("/r", dirAt "/r" "r")]

/-- A disk holding the directory `/r` and in it the empty directory `w`. -/
def worldRW : World :=
  { stat := fun path =>
      if path = "/r" then some statDirR
      else if path = "/r/w" then
        some { name := "w", size := 4096, mode := 493, modTime := 0, isDir := true }
      else none,
    readFile := fun _ => none,
    readDirNames := fun path =>
      if path = "/r" then some ["w"] else if path = "/r/w" then some [] else none,
    watch := fun _ => true }

/-- The disk of `worldRW` after `/r/w` has been removed. -/
def worldR : World :=
  { stat := fun path => if path = "/r" then some statDirR else none,
    readFile := fun _ => none,
    readDirNames := fun path => if path = "/r" then some [] else none,
    watch := fun _ => true }

/-! ## Theorems: machine integers -/

theorem wrap64_eq {x : Int} (h : isInt64 x) : wrap64 x = x := by
  unfold wrap64
  unfold isInt64 at h
  omega

theorem wrap64_neg_of_overflow {x : Int} (h1 : 2 ^ 63 ≤ x) (h2 : x < 2 ^ 64) : wrap64 x < 0 := by
  unfold wrap64
  omega

/-! ## Theorems: `Seek` -/

theorem seekTail_in_range (f : memFile) (t : Int)
    (hlen : (f.fi.content.length : Int) < 2 ^ 63)
    (h0 : 0 ≤ t) (h1 : t ≤ (f.fi.content.length : Int)) :
    seekTail f t = { ret := t, err := none, f := { f with offset := t } } := by
  have ht : wrap64 t = t := wrap64_eq ⟨by omega, by omega⟩
  unfold seekTail toInt
  rw [ht, if_neg (by omega)]

theorem seekTail_out_of_range (f : memFile) (t : Int) (ht : isInt64 t)
    (h : ¬ (0 ≤ t ∧ t ≤ (f.fi.content.length : Int))) :
    seekTail f t = { ret := 0, err := some Error.errOffset, f := f } := by
  unfold seekTail toInt
  rw [wrap64_eq ht, if_pos (by omega)]

/-- The `switch` of `Seek` with a wrapped sum `wrap64 (offset + base)`, `base` being the
read offset or the content length: the outcome is decided by the unbounded sum. -/
theorem seekTail_wrapped_sum (f : memFile) (offset base : Int)
    (hlen : (f.fi.content.length : Int) < 2 ^ 63)
    (hbase : 0 ≤ base ∧ base ≤ (f.fi.content.length : Int))
    (harg : isInt64 offset) :
    ((0 ≤ offset + base ∧ offset + base ≤ (f.fi.content.length : Int)) →
      seekTail f (wrap64 (offset + base))
        = { ret := offset + base, err := none, f := { f with offset := offset + base } }) ∧
    (¬ (0 ≤ offset + base ∧ offset + base ≤ (f.fi.content.length : Int)) →
      seekTail f (wrap64 (offset + base))
        = { ret := 0, err := some Error.errOffset, f := f }) := by
  unfold isInt64 at harg
  constructor
  · intro h
    rw [wrap64_eq ⟨by omega, by omega⟩]
    exact seekTail_in_range f _ hlen h.1 h.2
  · intro h
    by_cases hov : offset + base < 2 ^ 63
    · rw [wrap64_eq ⟨by omega, hov⟩]
      exact seekTail_out_of_range f _ ⟨by omega, hov⟩ h
    · have hneg : wrap64 (offset + base) < 0 := wrap64_neg_of_overflow (by omega) (by omega)
      have hge : -(2 ^ 63) ≤ wrap64 (offset + base) := by unfold wrap64; omega
      exact seekTail_out_of_range f _ ⟨hge, by omega⟩ (by omega)

/-- C1: for a handle with content length `L < 2^63` and read offset `0 ≤ o ≤ L`, every
`int64` offset argument and every whence, `Seek` computes the target `t` (`offset`,
`o + offset` or `L + offset`); if `0 ≤ t ≤ L` it sets the read offset to `t` and returns
`t` without error; if `t` is outside `[0, L]` it returns `errOffset` and leaves the handle
as it was; if whence is none of the three it returns `errWhence` and leaves the handle as
it was. -/
theorem Seek_spec (f : memFile) (offset whence : Int)
    (hlen : (f.fi.content.length : Int) < 2 ^ 63)
    (hoff : 0 ≤ f.offset ∧ f.offset ≤ (f.fi.content.length : Int))
    (harg : isInt64 offset) :
    (∀ t, seekTargetSpec f offset whence = some t →
      ((0 ≤ t ∧ t ≤ (f.fi.content.length : Int)) →
        f.Seek offset whence = { ret := t, err := none, f := { f with offset := t } }) ∧
      (¬ (0 ≤ t ∧ t ≤ (f.fi.content.length : Int)) →
        f.Seek offset whence = { ret := 0, err := some Error.errOffset, f := f })) ∧
    (seekTargetSpec f offset whence = none →
      f.Seek offset whence = { ret := 0, err := some Error.errWhence, f := f }) := by
  have hL64 : toInt64 (f.fi.content.length : Int) = (f.fi.content.length : Int) :=
    wrap64_eq ⟨by omega, by omega⟩
  unfold seekTargetSpec memFile.Seek
  by_cases h0 : whence = SEEK_SET
  · simp only [h0, if_true]
    refine ⟨?_, by intro h; cases h⟩
    intro t ht
    cases ht
    exact ⟨fun h => seekTail_in_range f _ hlen h.1 h.2,
      fun h => seekTail_out_of_range f _ harg h⟩
  · by_cases h1 : whence = SEEK_CUR
    · simp only [h0, h1, if_true, if_false]
      refine ⟨?_, by intro h; cases h⟩
      intro t ht
      cases ht
      have := seekTail_wrapped_sum f offset f.offset hlen hoff harg
      rw [add_comm f.offset offset]
      exact this
    · by_cases h2 : whence = SEEK_END
      · simp only [h0, h1, h2, if_true, if_false]
        refine ⟨?_, by intro h; cases h⟩
        intro t ht
        cases ht
        have := seekTail_wrapped_sum f offset (f.fi.content.length : Int) hlen
          ⟨by omega, le_refl _⟩ harg
        rw [add_comm (f.fi.content.length : Int) offset, hL64]
        exact this
      · simp only [h0, h1, h2, if_false]
        constructor
        · intro t h
          cases h
        · trivial

/-- A witness of `Seek_spec`: `Seek(3, SEEK_CUR)` at offset 2 of a four-byte file. -/
theorem Seek_spec_witness :
    (∀ t, seekTargetSpec ⟨fileAbcd, 2, 0⟩ 3 SEEK_CUR = some t →
      ((0 ≤ t ∧ t ≤ (fileAbcd.content.length : Int)) →
        memFile.Seek ⟨fileAbcd, 2, 0⟩ 3 SEEK_CUR
          = { ret := t, err := none, f := { (⟨fileAbcd, 2, 0⟩ : memFile) with offset := t } }) ∧
      (¬ (0 ≤ t ∧ t ≤ (fileAbcd.content.length : Int)) →
        memFile.Seek ⟨fileAbcd, 2, 0⟩ 3 SEEK_CUR
          = { ret := 0, err := some Error.errOffset, f := ⟨fileAbcd, 2, 0⟩ })) ∧
    (seekTargetSpec ⟨fileAbcd, 2, 0⟩ 3 SEEK_CUR = none →
      memFile.Seek ⟨fileAbcd, 2, 0⟩ 3 SEEK_CUR
        = { ret := 0, err := some Error.errWhence, f := ⟨fileAbcd, 2, 0⟩ }) :=
  Seek_spec ⟨fileAbcd, 2, 0⟩ 3 SEEK_CUR (by decide) (by decide) (by decide)

/-! ## Theorems: `Read` -/

/-- The outcome of `Read` on a handle whose offset lies within the content, in closed form. -/
theorem Read_eq (f : memFile) (p : List Byte)
    (hlen : (f.fi.content.length : Int) < 2 ^ 63)
    (hoff : 0 ≤ f.offset ∧ f.offset ≤ (f.fi.content.length : Int)) :
    f.Read p = some
      { n := min (p.length : Int) ((f.fi.content.length : Int) - f.offset),
        err := if (f.fi.content.length : Int) - f.offset ≥ (p.length : Int) then none
               else some Error.EOF,
        p := copy p ((f.fi.content.drop f.offset.toNat).take
               (min (p.length : Int) ((f.fi.content.length : Int) - f.offset)).toNat),
        f := { f with
          offset := f.offset + min (p.length : Int) ((f.fi.content.length : Int) - f.offset) } } := by
  have ho : toInt f.offset = f.offset := wrap64_eq ⟨by omega, by omega⟩
  have hd : wrap64 ((f.fi.content.length : Int) - f.offset)
      = (f.fi.content.length : Int) - f.offset := wrap64_eq ⟨by omega, by omega⟩
  unfold memFile.Read
  simp only [ho, hd]
  by_cases hk : (f.fi.content.length : Int) - f.offset ≥ (p.length : Int)
  · have hmin : min (p.length : Int) ((f.fi.content.length : Int) - f.offset)
        = (p.length : Int) := min_eq_left hk
    have hn : toInt64 (p.length : Int) = (p.length : Int) := wrap64_eq ⟨by omega, by omega⟩
    have hs : wrap64 (f.offset + (p.length : Int)) = f.offset + (p.length : Int) :=
      wrap64_eq ⟨by omega, by omega⟩
    simp only [if_pos hk, hmin, hn, hs]
    unfold slice
    rw [if_pos ⟨hoff.1, by omega, by omega⟩]
    simp
  · have hmin : min (p.length : Int) ((f.fi.content.length : Int) - f.offset)
        = (f.fi.content.length : Int) - f.offset := min_eq_right (by omega)
    have hn : toInt64 ((f.fi.content.length : Int) - f.offset)
        = (f.fi.content.length : Int) - f.offset := wrap64_eq ⟨by omega, by omega⟩
    have hs : wrap64 (f.offset + ((f.fi.content.length : Int) - f.offset))
        = f.offset + ((f.fi.content.length : Int) - f.offset) :=
      wrap64_eq ⟨by omega, by omega⟩
    simp only [if_neg hk, hmin, hn, hs]
    unfold slice
    rw [if_pos ⟨hoff.1, by omega, by omega⟩]
    simp

theorem copy_of_length_le (dst src : List Byte) (h : src.length ≤ dst.length) :
    copy dst src = src ++ dst.drop src.length := by
  unfold copy
  rw [List.take_of_length_le h]

theorem length_take_drop_content (c : List Byte) (o n : Nat) (h : o + n ≤ c.length) :
    ((c.drop o).take n).length = n := by
  rw [List.length_take, List.length_drop]
  omega

/-- What `Read` returns, writes and leaves behind on a handle whose offset lies within the
content. -/
theorem Read_props (f : memFile) (p : List Byte)
    (hlen : (f.fi.content.length : Int) < 2 ^ 63)
    (hoff : 0 ≤ f.offset ∧ f.offset ≤ (f.fi.content.length : Int)) :
    ∃ r, f.Read p = some r ∧
      r.n = min (p.length : Int) ((f.fi.content.length : Int) - f.offset) ∧
      r.p.take r.n.toNat = (f.fi.content.drop f.offset.toNat).take r.n.toNat ∧
      r.p.drop r.n.toNat = p.drop r.n.toNat ∧
      r.p.length = p.length ∧
      r.f.offset = f.offset + r.n ∧
      r.f.fi = f.fi ∧ r.f.dirOffset = f.dirOffset := by
  refine ⟨_, Read_eq f p hlen hoff, rfl, ?_, ?_, ?_, rfl, rfl, rfl⟩
  all_goals
    simp only []
    generalize hn : (min (p.length : Int) ((f.fi.content.length : Int) - f.offset)).toNat = n
    have hnk : n ≤ p.length := by omega
    have hnl : f.offset.toNat + n ≤ f.fi.content.length := by omega
    have hsl := length_take_drop_content f.fi.content f.offset.toNat n hnl
    rw [copy_of_length_le _ _ (by omega), hsl]
  · rw [List.take_append_of_le_length (by omega), List.take_of_length_le (by omega)]
  · rw [List.drop_append_of_le_length (by omega), List.drop_of_length_le (by omega)]
    simp
  · rw [List.length_append, List.length_drop, hsl]
    omega

/-- C2: for a handle with content `c` of length `L < 2^63` and read offset `0 ≤ o ≤ L`, and
every buffer `p` of length `k`, `Read` returns `n = min k (L - o)`, the first `n` bytes of
the buffer are `c[o .. o+n)` (the rest of the buffer is untouched), and the read offset
afterwards is `o + n`; the handle stays bound to the same record. -/
theorem Read_spec (f : memFile) (p : List Byte)
    (hlen : (f.fi.content.length : Int) < 2 ^ 63)
    (hoff : 0 ≤ f.offset ∧ f.offset ≤ (f.fi.content.length : Int)) :
    ∃ r, f.Read p = some r ∧
      r.n = min (p.length : Int) ((f.fi.content.length : Int) - f.offset) ∧
      r.p.take r.n.toNat = (f.fi.content.drop f.offset.toNat).take r.n.toNat ∧
      r.p.drop r.n.toNat = p.drop r.n.toNat ∧
      r.p.length = p.length ∧
      r.f.offset = f.offset + r.n ∧
      r.f.fi = f.fi ∧ r.f.dirOffset = f.dirOffset :=
  Read_props f p hlen hoff

/-- A witness of `Read_spec`: a two-byte buffer at offset 0 of a four-byte file. -/
theorem Read_spec_witness :
    ∃ r, memFile.Read ⟨fileAbcd, 0, 0⟩ [0, 0] = some r ∧
      r.n = min (([0, 0] : List Byte).length : Int) ((fileAbcd.content.length : Int) - 0) ∧
      r.p.take r.n.toNat = (fileAbcd.content.drop (0 : Int).toNat).take r.n.toNat ∧
      r.p.drop r.n.toNat = ([0, 0] : List Byte).drop r.n.toNat ∧
      r.p.length = ([0, 0] : List Byte).length ∧
      r.f.offset = 0 + r.n ∧
      r.f.fi = fileAbcd ∧ r.f.dirOffset = 0 :=
  Read_spec ⟨fileAbcd, 0, 0⟩ [0, 0] (by decide) (by decide)

/-- When `Read` signals `io.EOF`. -/
theorem Read_err_props (f : memFile) (p : List Byte)
    (hlen : (f.fi.content.length : Int) < 2 ^ 63)
    (hoff : 0 ≤ f.offset ∧ f.offset ≤ (f.fi.content.length : Int)) :
    ∃ r, f.Read p = some r ∧
      (r.err = some Error.EOF ↔ (f.fi.content.length : Int) - f.offset < (p.length : Int)) ∧
      (r.err = none ∨ r.err = some Error.EOF) ∧
      (r.err = some Error.EOF → r.f.offset = (f.fi.content.length : Int)) ∧
      (f.offset = (f.fi.content.length : Int) → 0 < p.length →
        r.n = 0 ∧ r.err = some Error.EOF) := by
  refine ⟨_, Read_eq f p hlen hoff, ?_, ?_, ?_, ?_⟩
  · by_cases hk : (f.fi.content.length : Int) - f.offset ≥ (p.length : Int)
    · simp only [if_pos hk]
      constructor
      · intro h; cases h
      · intro h; omega
    · simp only [if_neg hk]
      exact ⟨fun _ => by omega, fun _ => trivial⟩
  · by_cases hk : (f.fi.content.length : Int) - f.offset ≥ (p.length : Int)
    · left; simp only [if_pos hk]
    · right; simp only [if_neg hk]
  · by_cases hk : (f.fi.content.length : Int) - f.offset ≥ (p.length : Int)
    · simp only [if_pos hk]
      intro h; cases h
    · intro _
      simp only []
      rw [min_eq_right (by omega)]
      omega
  · intro ho hp
    have hk : ¬ ((f.fi.content.length : Int) - f.offset ≥ (p.length : Int)) := by omega
    simp only [if_neg hk]
    refine ⟨?_, trivial⟩
    rw [min_eq_right (by omega)]
    omega

/-- C3, as the code has it: for a handle with read offset in `[0, L]` and every buffer of
length `k`, `Read` signals `io.EOF` exactly when fewer than `k` bytes remain (`L - o < k`),
and never another error; whenever it signals `io.EOF` the read offset afterwards equals
`L`; a `Read` into a non-empty buffer issued at offset `L` returns zero bytes together
with `io.EOF`. -/
theorem Read_EOF_iff (f : memFile) (p : List Byte)
    (hlen : (f.fi.content.length : Int) < 2 ^ 63)
    (hoff : 0 ≤ f.offset ∧ f.offset ≤ (f.fi.content.length : Int)) :
    ∃ r, f.Read p = some r ∧
      (r.err = some Error.EOF ↔ (f.fi.content.length : Int) - f.offset < (p.length : Int)) ∧
      (r.err = none ∨ r.err = some Error.EOF) ∧
      (r.err = some Error.EOF → r.f.offset = (f.fi.content.length : Int)) ∧
      (f.offset = (f.fi.content.length : Int) → 0 < p.length →
        r.n = 0 ∧ r.err = some Error.EOF) :=
  Read_err_props f p hlen hoff

/-- A witness of `Read_EOF_iff`: a three-byte buffer at offset 2 of a four-byte file. -/
theorem Read_EOF_iff_witness :
    ∃ r, memFile.Read ⟨fileAbcd, 2, 0⟩ [0, 0, 0] = some r ∧
      (r.err = some Error.EOF ↔
        (fileAbcd.content.length : Int) - 2 < (([0, 0, 0] : List Byte).length : Int)) ∧
      (r.err = none ∨ r.err = some Error.EOF) ∧
      (r.err = some Error.EOF → r.f.offset = (fileAbcd.content.length : Int)) ∧
      ((2 : Int) = (fileAbcd.content.length : Int) → 0 < ([0, 0, 0] : List Byte).length →
        r.n = 0 ∧ r.err = some Error.EOF) :=
  Read_EOF_iff ⟨fileAbcd, 2, 0⟩ [0, 0, 0] (by decide) (by decide)

/-- C3 refuted as stated: a `Read` into a four-byte buffer at offset 0 of the four-byte
file `abcd` returns `n = 4` and a `nil` error, and leaves the read offset at 4, the
content length; end-of-stream is not signalled. -/
theorem Read_exact_fill_no_EOF :
    memFile.Read ⟨fileAbcd, 0, 0⟩ [0, 0, 0, 0]
      = some { n := 4, err := none, p := [97, 98, 99, 100], f := ⟨fileAbcd, 4, 0⟩ } ∧
    (fileAbcd.content.length : Int) = 4 := by
  decide

/-! ## Theorems: the read offset stays within the content -/

theorem wrap64_isInt64 (x : Int) : isInt64 (wrap64 x) := by
  unfold isInt64 wrap64
  omega

theorem seekTail_inv (f : memFile) (t : Int) (ht : isInt64 t)
    (hoff : 0 ≤ f.offset ∧ f.offset ≤ (f.fi.content.length : Int)) :
    (seekTail f t).f.fi = f.fi ∧ 0 ≤ (seekTail f t).f.offset ∧
      (seekTail f t).f.offset ≤ (f.fi.content.length : Int) := by
  unfold seekTail toInt
  rw [wrap64_eq ht]
  by_cases h : t < 0 ∨ t > (f.fi.content.length : Int)
  · rw [if_pos h]
    exact ⟨rfl, hoff.1, hoff.2⟩
  · rw [if_neg h]
    exact ⟨rfl, by simp only []; omega, by simp only []; omega⟩

theorem Seek_inv (f : memFile) (offset whence : Int) (harg : isInt64 offset)
    (hoff : 0 ≤ f.offset ∧ f.offset ≤ (f.fi.content.length : Int)) :
    (f.Seek offset whence).f.fi = f.fi ∧ 0 ≤ (f.Seek offset whence).f.offset ∧
      (f.Seek offset whence).f.offset ≤ (f.fi.content.length : Int) := by
  unfold memFile.Seek
  split
  · exact seekTail_inv f _ harg hoff
  · split
    · exact seekTail_inv f _ (wrap64_isInt64 _) hoff
    · split
      · exact seekTail_inv f _ (wrap64_isInt64 _) hoff
      · exact ⟨rfl, hoff.1, hoff.2⟩

theorem Op_apply_inv (f : memFile) (op : Op) (hop : op.wellTyped)
    (hlen : (f.fi.content.length : Int) < 2 ^ 63)
    (hoff : 0 ≤ f.offset ∧ f.offset ≤ (f.fi.content.length : Int)) :
    ∃ g, op.apply f = some g ∧ g.fi = f.fi ∧ 0 ≤ g.offset ∧
      g.offset ≤ (f.fi.content.length : Int) := by
  cases op with
  | read p =>
    obtain ⟨r, hr, hn, _, _, _, ho, hfi, _⟩ := Read_props f p hlen hoff
    refine ⟨r.f, by simp [Op.apply, hr], hfi, ?_, ?_⟩
    · rw [ho, hn]; omega
    · rw [ho, hn]; omega
  | seek offset whence =>
    have h := Seek_inv f offset whence hop.1 hoff
    exact ⟨_, rfl, h.1, h.2.1, h.2.2⟩

theorem runOps_inv (ops : List Op) : ∀ (f : memFile), (∀ op ∈ ops, op.wellTyped) →
    (f.fi.content.length : Int) < 2 ^ 63 →
    (0 ≤ f.offset ∧ f.offset ≤ (f.fi.content.length : Int)) →
    ∃ g, runOps f ops = some g ∧ g.fi = f.fi ∧ 0 ≤ g.offset ∧
      g.offset ≤ (g.fi.content.length : Int) := by
  induction ops with
  | nil =>
    intro f _ _ hoff
    exact ⟨f, rfl, rfl, hoff.1, hoff.2⟩
  | cons op ops ih =>
    intro f hops hlen hoff
    obtain ⟨g, hg, hfi, h0, h1⟩ :=
      Op_apply_inv f op (hops op (List.mem_cons_self _ _)) hlen hoff
    obtain ⟨g2, hg2, hfi2, h2⟩ :=
      ih g (fun o ho => hops o (List.mem_cons_of_mem _ ho)) (by rw [hfi]; exact hlen)
        ⟨h0, by rw [hfi]; exact h1⟩
    refine ⟨g2, ?_, hfi2.trans hfi, h2⟩
    simp [runOps, hg, hg2]

theorem Open_ok (fs : memFileSystem) (name : String) (f : memFile)
    (h : fs.Open name = Except.ok f) :
    fs.cache.get (Join fs.root name) = some f.fi ∧ f.offset = 0 ∧ f.dirOffset = 0 := by
  unfold memFileSystem.Open at h
  simp only [] at h
  split at h
  · cases h
  · next fi hfi =>
    cases h
    exact ⟨hfi, rfl, rfl⟩

/-- C10: for every handle `f` returned by `Open` (its record's content shorter than `2^63`
bytes, as every Go slice is) and every finite sequence of `Read` calls (any buffers) and
`Seek` calls (any `int64` offset, any whence), no call panics, the handle stays bound to
its record, the read offset `o` afterwards satisfies `0 ≤ o ≤ len(content)`, and a further
`Read` into any buffer returns (its slice expression is within bounds). -/
theorem Open_runOps_offset_inv (fs : memFileSystem) (name : String) (f : memFile)
    (hopen : fs.Open name = Except.ok f)
    (hlen : (f.fi.content.length : Int) < 2 ^ 63)
    (ops : List Op) (hops : ∀ op ∈ ops, op.wellTyped) :
    ∃ g, runOps f ops = some g ∧ g.fi = f.fi ∧
      0 ≤ g.offset ∧ g.offset ≤ (g.fi.content.length : Int) ∧
      ∀ p, ∃ r, g.Read p = some r := by
  have ho := (Open_ok fs name f hopen).2.1
  obtain ⟨g, hg, hfi, h0, h1⟩ := runOps_inv ops f hops hlen (by rw [ho]; omega)
  refine ⟨g, hg, hfi, h0, h1, fun p => ?_⟩
  obtain ⟨r, hr, _⟩ := Read_props g p (by rw [hfi]; exact hlen) ⟨h0, h1⟩
  exact ⟨r, hr⟩

/-- A witness of `Open_runOps_offset_inv`: reads and seeks, two of them out of range, on
the handle of `a.txt`. -/
theorem Open_runOps_offset_inv_witness :
    ∃ g, runOps ⟨fileAbcd, 0, 0⟩
        [Op.read [0, 0], Op.seek 10 SEEK_END, Op.seek (-1) SEEK_END, Op.read [0, 0, 0],
         Op.seek (-5) SEEK_CUR, Op.seek 0 7] = some g ∧ g.fi = fileAbcd ∧
      0 ≤ g.offset ∧ g.offset ≤ (g.fi.content.length : Int) ∧
      ∀ p, ∃ r, g.Read p = some r :=
  Open_runOps_offset_inv fsAbcd "a.txt" ⟨fileAbcd, 0, 0⟩ rfl (by decide)
    [Op.read [0, 0], Op.seek 10 SEEK_END, Op.seek (-1) SEEK_END, Op.read [0, 0, 0],
     Op.seek (-5) SEEK_CUR, Op.seek 0 7] (by decide)

/-! ## Theorems: `path.Clean` and `path.Dir` -/

theorem weight_append (a b : List (List Char)) : weight (a ++ b) = weight a + weight b := by
  induction a with
  | nil => simp [weight]
  | cons e es ih => simp [weight, ih]; omega

theorem weight_reverse (a : List (List Char)) : weight a.reverse = weight a := by
  induction a with
  | nil => rfl
  | cons e es ih => simp [weight, weight_append, ih]; omega

theorem splitSlash_ne_nil (x : List Char) : splitSlash x ≠ [] := by
  cases x with
  | nil => simp [splitSlash]
  | cons c cs =>
    unfold splitSlash
    split
    · simp
    · split <;> simp

theorem weight_splitSlash (x : List Char) : weight (splitSlash x) = x.length + 1 := by
  induction x with
  | nil => rfl
  | cons c cs ih =>
    unfold splitSlash
    split
    · simp [weight, ih]; omega
    · split
      · next h => exact absurd h (splitSlash_ne_nil cs)
      · next e es h =>
        rw [h] at ih
        simp [weight] at ih ⊢
        omega

theorem splitSlash_append_slash (y : List Char) :
    splitSlash (y ++ ['/']) = splitSlash y ++ [[]] := by
  induction y with
  | nil => rfl
  | cons c cs ih =>
    simp only [List.cons_append]
    unfold splitSlash
    split
    · rw [ih]; simp
    · rw [ih]
      split
      · next h => simp at h
      · next e es h =>
        split
        · next h2 => exact absurd h2 (splitSlash_ne_nil cs)
        · next e2 es2 h2 =>
          rw [h2] at h
          simp at h
          rw [← h.1, ← h.2]
          simp

theorem length_joinSlash_le (l : List (List Char)) : (joinSlash l).length + 1 ≤ weight l + 1 ∧
    (l ≠ [] → (joinSlash l).length + 1 = weight l) := by
  induction l with
  | nil => simp [joinSlash, weight]
  | cons e es ih =>
    cases es with
    | nil => simp [joinSlash, weight]
    | cons e2 es2 =>
      have := ih.2 (by simp)
      simp [joinSlash, weight] at this ⊢
      omega

theorem weight_cleanElems (rooted : Bool) (es : List (List Char)) :
    ∀ out, weight (cleanElems rooted es out) ≤ weight es + weight out := by
  induction es with
  | nil => intro out; simp [cleanElems, weight, weight_reverse]
  | cons e es ih =>
    intro out
    unfold cleanElems
    split
    · have := ih out; simp [weight]; omega
    · split
      · split
        · split
          · have := ih []; simp [weight] at this ⊢; omega
          · have := ih [e]; simp [weight] at this ⊢; omega
        · next o os =>
          split
          · have := ih (e :: o :: os); simp [weight] at this ⊢; omega
          · have := ih os; simp [weight] at this ⊢; omega
      · have := ih (e :: out); simp [weight] at this ⊢; omega

theorem cleanElems_append_empty (rooted : Bool) (es : List (List Char)) :
    ∀ out, cleanElems rooted (es ++ [[]]) out = cleanElems rooted es out := by
  induction es with
  | nil => intro out; simp [cleanElems]
  | cons e es ih =>
    intro out
    simp only [List.cons_append]
    unfold cleanElems
    simp only [ih]

/-- The model of `path.Clean` on rows of the test table of Go's `path` package. -/
theorem Clean_examples :
    Clean "" = "." ∧ Clean "/" = "/" ∧ Clean "abc/" = "abc" ∧
    Clean "abc//def//ghi" = "abc/def/ghi" ∧ Clean "abc/./def" = "abc/def" ∧
    Clean "abc/def/../ghi/../jkl" = "abc/jkl" ∧ Clean "abc/def/../.." = "." ∧
    Clean "/abc/def/../../.." = "/" ∧ Clean "abc/def/../../../ghi/jkl/../../../mno" = "../../mno" ∧
    Clean "/../abc" = "/abc" ∧ Clean "../../abc" = "../../abc" ∧
    Clean "abc/../../././../def" = "../../def" ∧
    Dir "/a/b" = "/a" ∧ Dir "/a/b/" = "/a/b" ∧ Dir "a" = "." ∧ Dir "/a" = "/" ∧
    Join "/r" "" = "/r" ∧ Join "/r" "/sub/../a.txt" = "/r/a.txt" := by
  decide

theorem lastIndexFrom_spec (sep : Char) (cs : List Char) : ∀ (i : Nat) (acc : Int),
    lastIndexFrom sep cs i acc = acc ∨
    ∃ j, j < cs.length ∧ lastIndexFrom sep cs i acc = ((i + j : Nat) : Int) ∧ cs[j]? = some sep := by
  induction cs with
  | nil => intro i acc; left; rfl
  | cons c cs ih =>
    intro i acc
    unfold lastIndexFrom
    rcases ih (i + 1) (if c = sep then (i : Int) else acc) with h | ⟨j, hj, hr, hc⟩
    · by_cases hcs : c = sep
      · right
        refine ⟨0, by simp, ?_, by simp [hcs]⟩
        rw [h, if_pos hcs]; simp
      · left
        rw [h, if_neg hcs]
    · right
      refine ⟨j + 1, by simp; omega, ?_, by simpa using hc⟩
      rw [hr]; congr 1; omega

theorem Clean_length_lt (y : List Char) (hy : y ≠ []) :
    (Clean ⟨y ++ ['/']⟩).data.length < (y ++ ['/']).length := by
  unfold Clean
  have hne : ¬ (y ++ ['/'] = []) := by simp
  simp only [hne, if_false, splitSlash_append_slash, cleanElems_append_empty]
  cases y with
  | nil => exact absurd rfl hy
  | cons c cs =>
    by_cases hc : c = '/'
    · subst hc
      have hsp : splitSlash ('/' :: cs) = [] :: splitSlash cs := by simp [splitSlash]
      have hcl : cleanElems true ([] :: splitSlash cs) [] = cleanElems true (splitSlash cs) [] := by
        simp [cleanElems]
      have hw := weight_cleanElems true (splitSlash cs) []
      rw [weight_splitSlash] at hw
      have hj := length_joinSlash_le (cleanElems true (splitSlash cs) [])
      simp only [List.cons_append, List.head?_cons, decide_True, if_true, hsp, hcl,
        List.length_cons, List.length_append, List.length_nil]
      by_cases ho : cleanElems true (splitSlash cs) [] = []
      · rw [ho]; simp [joinSlash]
      · have := hj.2 ho
        simp [weight] at hw
        omega
    · have hr : (decide ((c :: cs ++ ['/']).head? = some '/')) = false := by simp [hc]
      have hw := weight_cleanElems false (splitSlash (c :: cs)) []
      rw [weight_splitSlash] at hw
      have hj := length_joinSlash_le (cleanElems false (splitSlash (c :: cs)) [])
      simp only [hr, Bool.false_eq_true, if_false]
      by_cases ho : cleanElems false (splitSlash (c :: cs)) [] = []
      · rw [if_pos ho]; simp
      · rw [if_neg ho]
        have := hj.2 ho
        simp [weight] at hw ⊢
        omega

theorem Dir_ne_self (p : String) (h1 : p ≠ "/") (h2 : p ≠ ".") : Dir p ≠ p := by
  intro h
  unfold Dir LastIndex at h
  rcases lastIndexFrom_spec '/' p.data 0 (-1) with hr | ⟨j, hj, hr, hc⟩
  · rw [hr] at h
    have h0 : ((-1 : Int) + 1).toNat = 0 := by decide
    have : Clean ⟨[]⟩ = "." := by decide
    rw [h0, List.take_zero, this] at h
    exact h2 h.symm
  · rw [hr] at h
    have hm : (((0 + j : Nat) : Int) + 1).toNat = j + 1 := by omega
    rw [hm, List.take_succ, hc] at h
    simp only [Option.toList] at h
    by_cases hy : List.take j p.data = []
    · rw [hy] at h
      have : Clean ⟨[] ++ ['/']⟩ = "/" := by decide
      rw [this] at h
      exact h1 h.symm
    · have hlt := Clean_length_lt (List.take j p.data) hy
      rw [h] at hlt
      simp only [List.length_append, List.length_take, List.length_cons, List.length_nil] at hlt
      omega

/-! ## Theorems: the cache -/

theorem Cache.get_del_self (c : Cache) (k : String) : (c.del k).get k = none := by
  unfold Cache.get Cache.del
  induction c with
  | nil => rfl
  | cons e es ih =>
    obtain ⟨a, v⟩ := e
    by_cases h : a = k
    · have hb : ((a != k) = true) = False := by simp [h]
      rw [List.filter_cons]
      simp only [hb, if_false]
      exact ih
    · have hb : (a != k) = true := by simpa using h
      have hk : (k == a) = false := by simpa using fun h2 => h h2.symm
      rw [List.filter_cons]
      simp only [hb, if_true, List.lookup, hk]
      exact ih

theorem Cache.get_del_ne (c : Cache) (k k2 : String) (hne : k2 ≠ k) :
    (c.del k).get k2 = c.get k2 := by
  unfold Cache.get Cache.del
  induction c with
  | nil => rfl
  | cons e es ih =>
    obtain ⟨a, v⟩ := e
    by_cases h : a = k
    · have hb : ((a != k) = true) = False := by simp [h]
      have hk : (k2 == a) = false := by rw [h]; simpa using hne
      rw [List.filter_cons]
      simp only [hb, if_false, List.lookup, hk]
      exact ih
    · have hb : (a != k) = true := by simpa using h
      rw [List.filter_cons]
      simp only [hb, if_true, List.lookup]
      rw [ih]

theorem Cache.get_put_self (c : Cache) (k : String) (v : memFileInfo) :
    (c.put k v).get k = some v := by
  simp [Cache.get, Cache.put, List.lookup]

theorem Cache.get_put_ne (c : Cache) (k k2 : String) (v : memFileInfo) (hne : k2 ≠ k) :
    (c.put k v).get k2 = c.get k2 := by
  have hk : (k2 == k) = false := by simpa using hne
  have := Cache.get_del_ne c k k2 hne
  unfold Cache.get at this ⊢
  unfold Cache.put
  simp only [List.lookup, hk]
  exact this

theorem refreshCache_root (w : World) (fs : memFileSystem) (path : String)
    (info : Option FileInfo) : (fs.refreshCache w path info).2.root = fs.root := by
  unfold memFileSystem.refreshCache
  cases info with
  | none => rfl
  | some info =>
    simp only []
    split
    · split <;> rfl
    · rfl

theorem refreshCache_get_ne (w : World) (fs : memFileSystem) (path k : String)
    (info : Option FileInfo) (hne : k ≠ path) :
    (fs.refreshCache w path info).2.cache.get k = fs.cache.get k := by
  unfold memFileSystem.refreshCache
  cases info with
  | none => exact Cache.get_del_ne _ _ _ hne
  | some info =>
    simp only []
    split
    · split
      · rfl
      · exact Cache.get_put_ne _ _ _ _ hne
    · exact Cache.get_put_ne _ _ _ _ hne

theorem reloadFile_root (w : World) (fs : memFileSystem) (name : String) :
    (fs.reloadFile w name).2.root = fs.root := by
  unfold memFileSystem.reloadFile
  split
  · rfl
  · simp only []
    split <;> exact refreshCache_root _ _ _ _

theorem reloadFile_get_ne (w : World) (fs : memFileSystem) (name k : String) (hne : k ≠ name) :
    (fs.reloadFile w name).2.cache.get k = fs.cache.get k := by
  unfold memFileSystem.reloadFile
  split
  · rfl
  · simp only []
    split <;> exact refreshCache_get_ne _ _ _ _ _ hne

/-- The record that `refreshCache` builds for a regular file. -/
theorem reloadFile_get_self (w : World) (fs : memFileSystem) (name : String) (info : FileInfo)
    (c : List Byte) (hstat : w.stat name = some info) (hreg : info.isDir = false)
    (hread : w.readFile name = some c) :
    (fs.reloadFile w name).2.cache.get name
      = some { content := c, name := info.name, size := info.size, mode := info.mode,
               modTime := info.modTime, isDir := info.isDir, path := name } := by
  unfold memFileSystem.reloadFile memFileSystem.refreshCache
  simp only [hstat, hreg, hread, Bool.not_false, if_true]
  simp [Cache.get_put_self]

theorem deleteFile_root (w : World) (fs : memFileSystem) (name : String) :
    (fs.deleteFile w name).2.root = fs.root := by
  unfold memFileSystem.deleteFile
  split
  · rfl
  · exact refreshCache_root _ _ _ _

theorem deleteFile_get_self (w : World) (fs : memFileSystem) (name : String) :
    (fs.deleteFile w name).2.cache.get name = none := by
  unfold memFileSystem.deleteFile
  split
  · next h => exact h
  · exact Cache.get_del_self _ _

theorem onEvent_root (w : World) (fs : memFileSystem) (e : FileEvent) :
    (fs.onEvent w e).root = fs.root := by
  unfold memFileSystem.onEvent
  simp only []
  split <;> split <;> split <;>
    simp only [reloadFile_root, deleteFile_root]

/-! ## Theorems: reading a handle to the end -/

theorem readAll_eq_drop (k : Nat) (hk : 0 < k) : ∀ (fuel : Nat) (f : memFile),
    (f.fi.content.length : Int) < 2 ^ 63 →
    (0 ≤ f.offset ∧ f.offset ≤ (f.fi.content.length : Int)) →
    f.fi.content.length - f.offset.toNat + 1 ≤ fuel →
    readAll k fuel f = some (f.fi.content.drop f.offset.toNat) := by
  intro fuel
  induction fuel with
  | zero => intro f _ _ h; omega
  | succ fuel ih =>
    intro f hlen hoff hfuel
    obtain ⟨r, hr, hn, htake, _, _, hro, hfi, _⟩ :=
      Read_props f (List.replicate k 0) hlen hoff
    obtain ⟨r2, hr2, heof, _⟩ := Read_err_props f (List.replicate k 0) hlen hoff
    rw [hr] at hr2
    cases hr2
    rw [List.length_replicate] at hn heof
    unfold readAll
    simp only [hr]
    by_cases he : r.err = some Error.EOF
    · rw [if_pos he, htake]
      have hlt := heof.1 he
      have hnn : r.n.toNat = f.fi.content.length - f.offset.toNat := by omega
      rw [hnn, List.take_of_length_le (by rw [List.length_drop])]
    · rw [if_neg he]
      have hge : ¬ ((f.fi.content.length : Int) - f.offset < (k : Int)) := fun h => he (heof.2 h)
      have hnn : r.n.toNat = k := by omega
      have hoff2 : 0 ≤ r.f.offset ∧ r.f.offset ≤ (r.f.fi.content.length : Int) := by
        rw [hfi, hro, hn]; omega
      have hro2 : r.f.offset.toNat = f.offset.toNat + k := by rw [hro, hn]; omega
      rw [ih r.f (by rw [hfi]; exact hlen) hoff2 (by rw [hfi, hro2]; omega)]
      rw [htake, hfi, hro2, hnn]
      simp only [Option.map_some']
      rw [← List.drop_drop, List.take_append_drop]

/-! ## Theorems: the watcher loop -/

theorem onEvent_get_deleted (w : World) (fs : memFileSystem) (e : FileEvent)
    (hkind : e.IsDelete = true ∨ e.IsRename = true) (hdir : Dir e.Name ≠ e.Name) :
    (fs.onEvent w e).cache.get e.Name = none := by
  have hc : (e.IsDelete || e.IsRename) = true := by
    rcases hkind with h | h <;> simp [h]
  unfold memFileSystem.onEvent
  simp only [hc, if_true]
  rw [reloadFile_get_ne _ _ _ _ (fun h => hdir h.symm)]
  exact deleteFile_get_self _ _ _

/-- C7: for every cache, every disk and every event path `p` other than `/` and `.` (a
strict descendant of a root is neither): after `watcherCallback` handles one event for `p`
that is a Delete or a Rename, `Open` of any name that joins with the root to `p` fails
with the not-found error, whether or not `p` was cached before. -/
theorem Open_after_delete_event (w : World) (fs : memFileSystem) (e : FileEvent)
    (name : String)
    (hkind : e.IsDelete = true ∨ e.IsRename = true)
    (hslash : e.Name ≠ "/") (hdot : e.Name ≠ ".")
    (hjoin : Join fs.root name = e.Name) :
    (fs.onEvent w e).Open name = Except.error Error.notFound := by
  unfold memFileSystem.Open
  simp only [onEvent_root, hjoin,
    onEvent_get_deleted w fs e hkind (Dir_ne_self e.Name hslash hdot)]

/-- A witness of `Open_after_delete_event`: a Delete event for the cached `/r/a.txt`. -/
theorem Open_after_delete_event_witness :
    (fsAbcd.onEvent worldNewfile ⟨"/r/a.txt", false, false, true, false⟩).Open "a.txt"
      = Except.error Error.notFound :=
  Open_after_delete_event worldNewfile fsAbcd ⟨"/r/a.txt", false, false, true, false⟩ "a.txt"
    (Or.inl rfl) (by decide) (by decide) (by decide)

theorem onEvent_get_reloaded (w : World) (fs : memFileSystem) (e : FileEvent)
    (info : FileInfo) (c : List Byte)
    (hkind : e.IsCreate = true ∨ e.IsModify = true)
    (hnd : e.IsDelete = false) (hnr : e.IsRename = false)
    (hstat : w.stat e.Name = some info) (hreg : info.isDir = false)
    (hread : w.readFile e.Name = some c) :
    (fs.onEvent w e).cache.get e.Name
      = some { content := c, name := info.name, size := info.size, mode := info.mode,
               modTime := info.modTime, isDir := info.isDir, path := e.Name } := by
  have hself := fun fs0 : memFileSystem => reloadFile_get_self w fs0 e.Name info c hstat hreg hread
  have hcreate : ∀ fs0 : memFileSystem,
      (((fs0.reloadFile w e.Name).2).reloadFile w (Dir e.Name)).2.cache.get e.Name
        = some { content := c, name := info.name, size := info.size, mode := info.mode,
                 modTime := info.modTime, isDir := info.isDir, path := e.Name } := by
    intro fs0
    by_cases hd : Dir e.Name = e.Name
    · rw [hd]; exact hself _
    · rw [reloadFile_get_ne _ _ _ _ (fun h => hd h.symm)]; exact hself _
  unfold memFileSystem.onEvent
  simp only [hnd, hnr, Bool.or_self, Bool.false_eq_true, if_false]
  by_cases hm : e.IsModify = true
  · simp only [hm, if_true]
    exact hself _
  · have hcr : e.IsCreate = true := by
      rcases hkind with h | h
      · exact h
      · exact absurd h hm
    simp only [hm, hcr, if_true, Bool.false_eq_true, if_false]
    exact hcreate _

/-- C8: for every cache and every disk on which `p` is a regular file whose `Stat` and
`ReadFile` succeed with content `c` (shorter than `2^63` bytes): after `watcherCallback`
handles a Create or a Modify event for `p` (one that is not also a Delete or a Rename),
`Open` of any name that joins with the root to `p` succeeds with a handle at offset 0 whose
record has the name, size, mode, modTime and isDir of the `Stat` result, and reading the
handle with buffers of any size `k > 0` until `io.EOF` yields exactly `c`, given fuel for
`len(c) + 1` calls. -/
theorem Open_after_create_or_modify_event (w : World) (fs : memFileSystem) (e : FileEvent)
    (name : String) (info : FileInfo) (c : List Byte)
    (hkind : e.IsCreate = true ∨ e.IsModify = true)
    (hnd : e.IsDelete = false) (hnr : e.IsRename = false)
    (hstat : w.stat e.Name = some info) (hreg : info.isDir = false)
    (hread : w.readFile e.Name = some c)
    (hlen : (c.length : Int) < 2 ^ 63)
    (hjoin : Join fs.root name = e.Name) :
    ∃ f, (fs.onEvent w e).Open name = Except.ok f ∧
      f.offset = 0 ∧
      f.fi = { content := c, name := info.name, size := info.size, mode := info.mode,
               modTime := info.modTime, isDir := info.isDir, path := e.Name } ∧
      ∀ k fuel, 0 < k → c.length + 1 ≤ fuel → readAll k fuel f = some c := by
  refine ⟨{ fi := { content := c, name := info.name, size := info.size, mode := info.mode,
                    modTime := info.modTime, isDir := info.isDir, path := e.Name },
            offset := 0, dirOffset := 0 }, ?_, rfl, rfl, ?_⟩
  · unfold memFileSystem.Open
    simp only [onEvent_root, hjoin,
      onEvent_get_reloaded w fs e info c hkind hnd hnr hstat hreg hread]
  · intro k fuel hk hfuel
    have := readAll_eq_drop k hk fuel
      { fi := { content := c, name := info.name, size := info.size, mode := info.mode,
                modTime := info.modTime, isDir := info.isDir, path := e.Name },
        offset := 0, dirOffset := 0 } hlen ⟨le_refl _, by simp⟩ (by simpa using hfuel)
    simpa using this

/-- A witness of `Open_after_create_or_modify_event`: a Create event for
`/r/newfile.txt`, which holds `hi` on disk. -/
theorem Open_after_create_or_modify_event_witness :
    ∃ f, (fsAbcd.onEvent worldNewfile ⟨"/r/newfile.txt", true, false, false, false⟩).Open
        "newfile.txt" = Except.ok f ∧
      f.offset = 0 ∧
      f.fi = { content := [104, 105], name := statNewfile.name, size := statNewfile.size,
               mode := statNewfile.mode, modTime := statNewfile.modTime,
               isDir := statNewfile.isDir, path := "/r/newfile.txt" } ∧
      ∀ k fuel, 0 < k → ([104, 105] : List Byte).length + 1 ≤ fuel →
        readAll k fuel f = some [104, 105] :=
  Open_after_create_or_modify_event worldNewfile fsAbcd
    ⟨"/r/newfile.txt", true, false, false, false⟩ "newfile.txt" statNewfile [104, 105]
    (Or.inl rfl) rfl rfl (by decide) (by decide) (by decide) (by decide) (by decide)

/-! ## Theorems: `Readdir` -/

theorem listedInfos_cons_listed (pfx path : String) (fi : memFileInfo)
    (rest : List (String × memFileInfo)) (h : listed pfx path = true) :
    listedInfos pfx ((path, fi) :: rest) = fi :: listedInfos pfx rest := by
  simp [listedInfos, List.filter_cons, h]

theorem listedInfos_cons_not_listed (pfx path : String) (fi : memFileInfo)
    (rest : List (String × memFileInfo)) (h : listed pfx path = false) :
    listedInfos pfx ((path, fi) :: rest) = listedInfos pfx rest := by
  simp [listedInfos, List.filter_cons, h]

/-- The `range` loop of `Readdir` in closed form: it appends to `infos` the listed entries
in iteration order, after dropping those the `skip` counter still has to pass, and stops
once `infos` has grown to `count` entries. -/
theorem readdirLoop_eq (pfx : String) (dirOffset : Nat) (count : Int) :
    ∀ (iter : List (String × memFileInfo)) (infos : List memFileInfo) (skip : Nat),
    readdirLoop pfx dirOffset count iter infos skip
      = infos ++
        (if (infos.length : Int) < count then
          ((listedInfos pfx iter).drop (dirOffset - skip)).take (count - infos.length).toNat
         else (listedInfos pfx iter).drop (dirOffset - skip)) := by
  intro iter
  induction iter with
  | nil => intro infos skip; simp [readdirLoop, listedInfos]
  | cons e rest ih =>
    intro infos skip
    obtain ⟨path, fi⟩ := e
    unfold readdirLoop
    by_cases h1 : (HasPrefix path pfx || pfx == ".") = true
    · rw [if_pos h1]
      by_cases h2 : (len path == len pfx) = true
      · rw [if_pos h2, ih,
          listedInfos_cons_not_listed _ _ _ _ (by simp [listed, h2])]
      · rw [if_neg h2]
        by_cases h3 : LastIndex path '/' > len pfx
        · rw [if_pos h3, ih,
            listedInfos_cons_not_listed _ _ _ _ (by simp [listed, h3])]
        · rw [if_neg h3]
          have hl : listed pfx path = true := by
            unfold listed
            rw [h1]
            simp only [Bool.not_eq_true] at h2
            simp [h2, h3]
          rw [listedInfos_cons_listed _ _ _ _ hl]
          by_cases h4 : skip < dirOffset
          · rw [if_pos h4, ih]
            have hd : dirOffset - skip = (dirOffset - (skip + 1)) + 1 := by omega
            rw [hd, List.drop_succ_cons]
          · rw [if_neg h4]
            have hd : dirOffset - skip = 0 := by omega
            rw [hd, List.drop_zero]
            by_cases h5 : ((infos ++ [fi]).length : Int) = count
            · rw [if_pos h5]
              rw [List.length_append, List.length_singleton] at h5
              have hlt : (infos.length : Int) < count := by omega
              have h1n : (count - (infos.length : Int)).toNat = 1 := by omega
              rw [if_pos hlt, h1n]
              simp
            · rw [if_neg h5, ih, hd, List.drop_zero]
              rw [List.length_append, List.length_singleton] at h5 ⊢
              by_cases hlt : (infos.length : Int) < count
              · have hlt2 : ((infos.length + 1 : Nat) : Int) < count := by omega
                have hn : (count - (infos.length : Int)).toNat
                    = (count - ((infos.length + 1 : Nat) : Int)).toNat + 1 := by omega
                rw [if_pos hlt, if_pos hlt2, hn, List.take_succ_cons]
                simp
              · have hlt2 : ¬ (((infos.length + 1 : Nat) : Int) < count) := by omega
                rw [if_neg hlt, if_neg hlt2]
                simp
    · rw [if_neg h1, ih,
        listedInfos_cons_not_listed _ _ _ _ (by
          simp only [Bool.not_eq_true] at h1
          simp [listed, h1])]

/-- The method `Readdir` in closed form: skip `dirOffset` listed entries in iteration order,
take a page of them, sort the page, and advance `dirOffset` by its length. -/
theorem Readdir_eq (f : memFile) (iter : List (String × memFileInfo)) (count : Int) :
    f.Readdir iter count
      = (sortInfos (pageOf count ((listedInfos f.fi.path iter).drop f.dirOffset)),
         { f with dirOffset := f.dirOffset
             + (pageOf count ((listedInfos f.fi.path iter).drop f.dirOffset)).length }) := by
  have h := readdirLoop_eq f.fi.path f.dirOffset count iter [] 0
  simp only [List.nil_append, List.length_nil, Nat.sub_zero, Int.sub_zero, Nat.cast_zero] at h
  unfold memFile.Readdir pageOf
  simp only [h]

/-- Successive calls that all visit the map in one and the same order: the pages, put
together, are a rearrangement of the next `n * k` listed entries after the cursor. -/
theorem readdirCalls_same_order (iter : List (String × memFileInfo)) (k : Nat) (hk : 0 < k) :
    ∀ (n : Nat) (f : memFile),
    ((readdirCalls (k : Int) f (List.replicate n iter)).1.flatten).Perm
      (((listedInfos f.fi.path iter).drop f.dirOffset).take (n * k)) := by
  intro n
  induction n with
  | zero => intro f; simp [readdirCalls]
  | succ n ih =>
    intro f
    have hpos : (0 : Int) < (k : Int) := by omega
    have hpage : pageOf (k : Int) ((listedInfos f.fi.path iter).drop f.dirOffset)
        = ((listedInfos f.fi.path iter).drop f.dirOffset).take k := by
      unfold pageOf
      rw [if_pos hpos]
      simp
    simp only [List.replicate_succ, readdirCalls, List.flatten_cons]
    have h1 := Readdir_eq f iter (k : Int)
    rw [hpage] at h1
    have ih2 := ih (f.Readdir iter (k : Int)).2
    rw [h1] at ih2 ⊢
    simp only [] at ih2 ⊢
    have hsort : (sortInfos (((listedInfos f.fi.path iter).drop f.dirOffset).take k)).Perm
        (((listedInfos f.fi.path iter).drop f.dirOffset).take k) :=
      List.perm_insertionSort _ _
    refine (List.Perm.append hsort ih2).trans ?_
    generalize hX : (listedInfos f.fi.path iter).drop f.dirOffset = X
    have hdrop : (listedInfos f.fi.path iter).drop (f.dirOffset + (X.take k).length)
        = X.drop (X.take k).length := by
      rw [← hX, List.drop_drop, add_comm]
    rw [hdrop]
    have hmul : (n + 1) * k = k + n * k := by ring
    rw [hmul]
    by_cases hlen : k ≤ X.length
    · have hl : (X.take k).length = k := by rw [List.length_take]; omega
      rw [hl, List.take_add]
    · have hall : X.take k = X := List.take_of_length_le (by omega)
      rw [hall, List.drop_length, List.take_nil, List.append_nil,
        List.take_of_length_le (by omega)]

/-- C4 at a failing input: in the cache of `fsSub` the directory `/r/sub` holds only
`b.txt`, and `/r/subway` is a file next to it, not a child of it; the unbounded `Readdir`
on the fresh handle of `sub` returns both `b.txt` and `subway`. -/
theorem Readdir_returns_sibling :
    fsSub.Open "sub" = Except.ok ⟨dirAt "/r/sub" "sub", 0, 0⟩ ∧
    (memFile.Readdir ⟨dirAt "/r/sub" "sub", 0, 0⟩ fsSub.cache (-1)).1
      = [fileAt "/r/sub/b.txt" "b.txt", fileAt "/r/subway" "subway"] ∧
    isChild "/r/sub" "/r/subway" = false ∧
    fsSub.cache.filter (fun e => isChild "/r/sub" e.1)
      = [("/r/sub/b.txt", fileAt "/r/sub/b.txt" "b.txt")] := by
  refine ⟨rfl, ?_, ?_, ?_⟩ <;> decide

/-- The sibling is returned whatever order the map is iterated in. -/
theorem Readdir_sibling_in_any_order (iter : List (String × memFileInfo))
    (hperm : iter.Perm fsSub.cache) :
    fileAt "/r/subway" "subway"
      ∈ (memFile.Readdir ⟨dirAt "/r/sub" "sub", 0, 0⟩ iter (-1)).1 := by
  rw [Readdir_eq]
  simp only [pageOf, sortInfos, List.drop_zero]
  rw [if_neg (by decide)]
  rw [(List.perm_insertionSort _ _).mem_iff]
  unfold listedInfos
  rw [List.mem_map]
  refine ⟨("/r/subway", fileAt "/r/subway" "subway"), ?_, rfl⟩
  rw [List.mem_filter]
  refine ⟨hperm.mem_iff.mpr (by decide), by decide⟩

/-- C5 at a failing input: the directory `/r/d` of `fsAbc` has the three children `a`, `b`
and `c`; with page size 2, a first call that visits the map as `a, b, c` and a second call
that visits it as `c, a, b` return the pages `[a, b]` and `[b]`, and the third call returns
the empty page: `b` is listed twice and `c` never, while the unbounded call returns
`[a, b, c]`. -/
theorem Readdir_pages_repeat_and_omit :
    fsAbc.Open "d" = Except.ok ⟨dirAt "/r/d" "d", 0, 0⟩ ∧
    iterCab.Perm fsAbc.cache ∧
    (readdirCalls 2 ⟨dirAt "/r/d" "d", 0, 0⟩ [fsAbc.cache, iterCab, fsAbc.cache]).1
      = [[fileAt "/r/d/a" "a", fileAt "/r/d/b" "b"], [fileAt "/r/d/b" "b"], []] ∧
    (memFile.Readdir ⟨dirAt "/r/d" "d", 0, 0⟩ fsAbc.cache 0).1
      = [fileAt "/r/d/a" "a", fileAt "/r/d/b" "b", fileAt "/r/d/c" "c"] := by
  refine ⟨rfl, ?_, ?_, ?_⟩ <;> decide

/-- C6 at a failing input: the directory `/r/d` has the children `a`, `b` and `c`; on a
fresh handle (`dirOffset = 0`), when the map is visited as `c, a, b`, `Readdir(2)` returns
`[a, c]`, whereas positions `[0, 2)` of the children sorted by name are `[a, b]`. -/
theorem Readdir_page_not_of_sorted_list :
    iterCab.Perm fsAbc.cache ∧
    (memFile.Readdir ⟨dirAt "/r/d" "d", 0, 0⟩ iterCab 2).1
      = [fileAt "/r/d/a" "a", fileAt "/r/d/c" "c"] ∧
    ((sortInfos ((iterCab.filter (fun e => isChild "/r/d" e.1)).map (fun e => e.2))).drop 0).take 2
      = [fileAt "/r/d/a" "a", fileAt "/r/d/b" "b"] := by
  refine ⟨?_, ?_, ?_⟩ <;> decide

/-- C9 at a failing input: the walk of the root `/r/w` (an empty directory) caches the one
key `/r/w`; after a Delete event for `/r/w` itself, handled when the directory is gone from
the disk, the cache holds the one key `/r`, the parent of the root. -/
theorem watcherCallback_caches_parent_of_root :
    New worldRW 2 "/r/w" = some (Except.ok ⟨"/r/w", [("/r/w", dirAt "/r/w" "w")]⟩) ∧
    underRoot "/r/w" "/r/w" = true ∧
    ((⟨"/r/w", [("/r/w", dirAt "/r/w" "w")]⟩ : memFileSystem).watcherCallback
        [(worldR, ⟨"/r/w", false, false, true, false⟩)]).cache
      = [("/r", dirAt "/r" "r")] ∧
    underRoot "/r/w" "/r" = false := by
  refine ⟨rfl, ?_, ?_, ?_⟩ <;> decide

end Memfs
